import Mathlib

/-!
Verification development for a shedding-type card game simulator
(`main.py`: `GameEnv`, `NaivePlayer`, `UserPlayer`).

Hands are frequency vectors over ranks, embedded as `List ℕ`.
`leading_rank` follows the source's convention: an `ℤ`, with `-1` the
"none" sentinel (see `NaivePlayer.move`, which resets it to `-1` when free).

The helpers `utils.smallest_valid_choice` and `utils.read_user_cards` and the
constants module are not part of the sources at hand; they are modelled from
the specification (see the doc comments below).
-/

namespace CardRL

/-- A play shape: `width` distinct consecutive ranks, `copies` copies of each
(the "w×m" patterns of the catalog, e.g. 1×1 = single, 3×2 = three pairs). -/
structure Pattern where
  width : ℕ
  copies : ℕ
deriving DecidableEq, Repr

/-- A hand: one count per rank. -/
abbrev Hand := List ℕ

/-- Availability at starting rank `r`: ranks `r, r+1, …, r+width-1` all exist
within the playable rank range and each holds at least `copies` in `hand`. -/
def canStart (hand : Hand) (pat : Pattern) (r : ℕ) : Bool :=
  decide (r + pat.width ≤ hand.length) &&
  (List.range pat.width).all (fun i => decide (pat.copies ≤ hand.getD (r + i) 0))

/-- Representative rank of the candidate starting at `r` (the first/lowest card
of the run names the play, cf. "the first card is the leading rank"). -/
def repRank (r : ℕ) : ℕ := r

/-- Outrank test: the representative rank must strictly exceed `leading_rank`;
with the `-1` sentinel this is vacuously true when unconstrained. -/
def outranks (r : ℕ) (leading_rank : ℤ) : Bool :=
  decide (leading_rank < (repRank r : ℤ))

/-- A candidate is valid when it is available in the hand and outranks the lead. -/
def validStart (hand : Hand) (pat : Pattern) (leading_rank : ℤ) (r : ℕ) : Bool :=
  canStart hand pat r && outranks r leading_rank

/-- The count vector of the cards actually played: `copies` at each of the
`width` ranks starting at `r`, zero elsewhere; same shape as the hand. -/
def choiceVec (n : ℕ) (pat : Pattern) (r : ℕ) : Hand :=
  (List.range n).map (fun i => if r ≤ i ∧ i < r + pat.width then pat.copies else 0)

/-- Modelled from the spec: `utils.smallest_valid_choice` (the module `utils`
is not among the sources; §4.2 of the spec defines it).  Enumerates candidate
starting ranks in ascending order, keeps those available in the hand whose
representative rank strictly exceeds `leading_rank`, and returns the first
(lowest) one as `(found, pattern, choice, rank)`; on failure it reports
not-found, passing the pattern and leading rank through. -/
def smallest_valid_choice (hand : Hand) (pat : Pattern) (leading_rank : ℤ := -1) :
    Bool × Pattern × Hand × ℤ :=
  match (List.range hand.length).find? (validStart hand pat leading_rank) with
  | some r => (true, pat, choiceVec hand.length pat r, (repRank r : ℤ))
  | none => (false, pat, List.replicate hand.length 0, leading_rank)

/-- Elementwise hand update `self.hand -= choice` (numpy subtraction; the
engine only ever plays choices available in the hand, so no entry drops
below zero). -/
def subCount (hand choice : Hand) : Hand :=
  List.zipWith (fun a b => a - b) hand choice

/-- `GameEnv.calculate_reward`: 10 on an emptied hand, 0.1 on a successful
move, −0.1 on a skip.  `curr_player` is accepted but unused, as in the source. -/
def calculate_reward (curr_player : ℕ) (contains_pattern : Bool) (remainder : ℕ) : ℚ :=
  if remainder = 0 then 10
  else if contains_pattern then 1 / 10
  else -(1 / 10)

/-- Result tuple of a player's `move`: `(contains_pattern, pattern, choice,
leading_rank)` plus the player's hand afterwards (whose sum is the returned
`remainder`). -/
structure MoveResult where
  contains_pattern : Bool
  pattern : Option Pattern
  choice : Hand
  leading_rank : ℤ
  newHand : Hand
deriving Repr, DecidableEq

/-- The free-move loop of `NaivePlayer.move`: try each pattern of the
(already shuffled) moveset with `smallest_valid_choice` until one succeeds;
on overall failure the variables keep the values of the last iteration. -/
def tryPatterns (hand : Hand) : List Pattern → Bool × Option Pattern × Hand × ℤ
  | [] => (false, none, List.replicate hand.length 0, -1)
  | p :: rest =>
    let r := smallest_valid_choice hand p
    if r.1 = true ∨ rest = [] then (r.1, some r.2.1, r.2.2.1, r.2.2.2)
    else tryPatterns hand rest

/-- `NaivePlayer.move`.  When `free`, the leading rank is reset to `-1`, the
shuffled moveset is scanned for the first workable pattern, and the free flag
is consumed (the caller records the mover as no longer free).  Otherwise the
single pattern in force is tried against `leading_rank`.  On success the
choice is subtracted from the hand.  A non-free move with no pattern in force
cannot arise in a game (the opener is free); it is modelled as a skip. -/
def naive_move (hand : Hand) (free : Bool) (shuffled : List Pattern)
    (pattern : Option Pattern) (leading_rank : ℤ) : MoveResult :=
  if free then
    let r := tryPatterns hand shuffled
    if r.1 then ⟨true, r.2.1, r.2.2.1, r.2.2.2, subCount hand r.2.2.1⟩
    else ⟨false, r.2.1, r.2.2.1, r.2.2.2, hand⟩
  else
    match pattern with
    | none => ⟨false, none, List.replicate hand.length 0, leading_rank, hand⟩
    | some p =>
      let r := smallest_valid_choice hand p leading_rank
      if r.1 then ⟨true, some r.2.1, r.2.2.1, r.2.2.2, subCount hand r.2.2.1⟩
      else ⟨false, some r.2.1, r.2.2.1, r.2.2.2, hand⟩

/-- One player's slot: its hand and its `free` flag. -/
structure PlayerSt where
  hand : Hand
  free : Bool
deriving Repr, DecidableEq

/-- The dictionary returned by `GameEnv.get_state`: current player, a copy of
every hand, and the current player's free flag. -/
structure StateSnap where
  curr_player : ℕ
  hands : List Hand
  free : Bool
deriving Repr, DecidableEq

/-- The `action` record of `GameEnv.play_game`. -/
structure ActionRec where
  player : ℕ
  contains_pattern : Bool
  pattern : Option Pattern
  choice : Hand
  leading_rank : ℤ
deriving Repr, DecidableEq

/-- One `history` record: `{state, action, new_state, reward}`. -/
structure HistEntry where
  state : StateSnap
  action : ActionRec
  new_state : StateSnap
  reward : ℚ
deriving Repr, DecidableEq

/-- The orchestrator state of `GameEnv.play_game` at the top of the loop. -/
structure GameState where
  players : List PlayerSt
  currPlayer : ℕ
  pattern : Option Pattern
  leadingRank : ℤ
  skipCount : ℕ
  history : List HistEntry
deriving Repr, DecidableEq

/-- Indexing into the player list (total, with a vacuous default slot). -/
def getPlayer (ps : List PlayerSt) (i : ℕ) : PlayerSt :=
  ps.getD i ⟨[], false⟩

/-- `self.players[i].free = True`. -/
def setFree (ps : List PlayerSt) (i : ℕ) : List PlayerSt :=
  ps.set i ⟨(getPlayer ps i).hand, true⟩

/-- `GameEnv.get_state`. -/
def get_state (s : GameState) (curr : ℕ) : StateSnap :=
  ⟨curr, s.players.map (fun pl => pl.hand), (getPlayer s.players curr).free⟩

/-- The free-reset at the top of the loop: if all other players skipped
(`skip_count == num_players - 1`), the player about to move is marked free
and the skip counter resets. -/
def freeCheck (s : GameState) : GameState :=
  if s.skipCount = s.players.length - 1 then
    { s with players := setFree s.players s.currPlayer, skipCount := 0 }
  else s

/-- The move of the current (naive) player for this step, after the
free-reset; `shuffled` is the moveset in the order this step's shuffle put it. -/
def moverResult (shuffled : List Pattern) (s : GameState) : MoveResult :=
  let s₁ := freeCheck s
  let pl := getPlayer s₁.players s.currPlayer
  naive_move pl.hand pl.free shuffled s₁.pattern s₁.leadingRank

/-- The orchestrator state after applying the current player's move (hand
updated, free flag consumed, pattern/leading rank/skip counter updated),
before the history append and the turn advance. -/
def postMove (shuffled : List Pattern) (s : GameState) : GameState :=
  let s₁ := freeCheck s
  let mv := moverResult shuffled s
  { s₁ with
    players := s₁.players.set s.currPlayer ⟨mv.newHand, false⟩,
    pattern := mv.pattern,
    leadingRank := mv.leading_rank,
    skipCount := if mv.contains_pattern then 0 else s₁.skipCount + 1 }

/-- The history record appended by this step: pre-move snapshot, action,
post-move snapshot, reward. -/
def stepEntry (shuffled : List Pattern) (s : GameState) : HistEntry :=
  let mv := moverResult shuffled s
  ⟨get_state s s.currPlayer,
   ⟨s.currPlayer, mv.contains_pattern, mv.pattern, mv.choice, mv.leading_rank⟩,
   get_state (postMove shuffled s) s.currPlayer,
   calculate_reward s.currPlayer mv.contains_pattern mv.newHand.sum⟩

/-- One iteration of the `while True` loop of `GameEnv.play_game` for a naive
player: free-reset, move, history append, game-over test (`remainder <= 0`),
turn advance.  Returns the new state and whether the game just ended (in
which case `currPlayer` is not advanced: that player is the winner). -/
def step (shuffled : List Pattern) (s : GameState) : GameState × Bool :=
  let s₂ := postMove shuffled s
  let s₃ := { s₂ with history := s₂.history ++ [stepEntry shuffled s] }
  if (moverResult shuffled s).newHand.sum = 0 then (s₃, true)
  else ({ s₃ with currPlayer := (s.currPlayer + 1) % s.players.length }, false)

/-- The game loop, fuelled.  `sh t` is the shuffled moveset the naive mover
uses at step `t` (modelling `random.shuffle(self.moveset)`); `none` means the
fuel ran out before the game ended. -/
def runGame (sh : ℕ → List Pattern) : ℕ → ℕ → GameState → Option GameState
  | 0, _, _ => none
  | fuel + 1, t, s =>
    let r := step (sh t) s
    if r.2 then some r.1 else runGame sh fuel (t + 1) r.1

/-- The state at the top of the first loop iteration of `play_game`: dealt
hands, a random starting player marked free, no pattern in force, leading
rank unset, no skips, empty history. -/
def initState (hands : List Hand) (start : ℕ) : GameState :=
  ⟨setFree (hands.map (fun h => ⟨h, false⟩)) start, start, none, -1, 0, []⟩

/-- Total cards still held. -/
def totalCards (s : GameState) : ℕ :=
  (s.players.map (fun pl => pl.hand.sum)).sum

/-- Termination measure: every loop iteration of a running game strictly
decreases it. -/
def measureOf (s : GameState) : ℕ :=
  totalCards s * s.players.length + (s.players.length - 1 - s.skipCount)

/-- Cards of rank `i` held across all hands. -/
def handsTotal (s : GameState) (i : ℕ) : ℕ :=
  (s.players.map (fun pl => pl.hand.getD i 0)).sum

/-- Cards of rank `i` in all previously played (successful) choices. -/
def playedTotal (hist : List HistEntry) (i : ℕ) : ℕ :=
  (hist.map (fun e => if e.action.contains_pattern then e.action.choice.getD i 0 else 0)).sum

/-- A pattern in force is workable: at least one rank and one copy per rank
(every catalog entry, e.g. 1×1 singles or 3×2 runs of pairs, is of this form). -/
def GoodPat : Option Pattern → Prop
  | none => True
  | some p => 1 ≤ p.width ∧ 1 ≤ p.copies

/-- A shuffled moveset as produced from the catalog: it offers the single
pattern 1×1 and every entry is workable. -/
def GoodShuffle (ms : List Pattern) : Prop :=
  (Pattern.mk 1 1) ∈ ms ∧ ∀ p ∈ ms, 1 ≤ p.width ∧ 1 ≤ p.copies

/-- The loop invariant of a running game: at least two seats, the mover's
index in range, at most `num_players − 1` consecutive skips, every hand
non-empty, and a workable pattern in force (if any). -/
def Inv (s : GameState) : Prop :=
  2 ≤ s.players.length ∧
  s.currPlayer < s.players.length ∧
  s.skipCount ≤ s.players.length - 1 ∧
  (∀ pl ∈ s.players, 0 < pl.hand.sum) ∧
  GoodPat s.pattern

/-- `freq[idx] -= 1` during the deal. -/
def decr (freq : List ℕ) (idx : ℕ) : List ℕ :=
  freq.set idx (freq.getD idx 0 - 1)

/-- `hand[idx] += 1` during the deal. -/
def incr (hand : List ℕ) (idx : ℕ) : List ℕ :=
  hand.set idx (hand.getD idx 0 + 1)

/-- The rejection loop of `GameEnv.reset`: draw random rank indices (`s t`
at time `t`, reduced mod `N` like `random.randint(0, NUM_RANKS-1)`) until one
with a positive remaining count is hit; fuelled. -/
def dealCard (N : ℕ) (s : ℕ → ℕ) : ℕ → ℕ → List ℕ → Option (ℕ × ℕ × List ℕ)
  | 0, _, _ => none
  | fuel + 1, t, freq =>
    let idx := s t % N
    if 0 < freq.getD idx 0 then some (idx, t + 1, decr freq idx)
    else dealCard N s fuel (t + 1) freq

/-- Deal `count` cards into `hand`, drawing one at a time from `freq`. -/
def dealHand (N : ℕ) (s : ℕ → ℕ) : ℕ → ℕ → ℕ → List ℕ → List ℕ →
    Option (ℕ × List ℕ × List ℕ)
  | 0, _, t, freq, hand => some (t, freq, hand)
  | count + 1, fuel, t, freq, hand =>
    match dealCard N s fuel t freq with
    | none => none
    | some (idx, t', freq') => dealHand N s count fuel t' freq' (incr hand idx)

/-- The four-player deal of `GameEnv.reset`: players 0–2 each draw their
`cpp` quota from the shrinking frequency table; the last player takes the
remaining table (`self.hands[-1] = card_freq`). -/
def dealAll (N : ℕ) (s : ℕ → ℕ) (fuel : ℕ) (cpp : List ℕ) (freq0 : List ℕ) :
    Option (List Hand) :=
  match dealHand N s (cpp.getD 0 0) fuel 0 freq0 (List.replicate N 0) with
  | none => none
  | some (t1, f1, h0) =>
    match dealHand N s (cpp.getD 1 0) fuel t1 f1 (List.replicate N 0) with
    | none => none
    | some (t2, f2, h1) =>
      match dealHand N s (cpp.getD 2 0) fuel t2 f2 (List.replicate N 0) with
      | none => none
      | some (_, f3, h2) => some [h0, h1, h2, f3]

/-- One round of operator input for `UserPlayer.move`: the pattern the
operator would name (used while free), whether every card token is known,
and the outcome of `utils.read_user_cards` on the card string.
`utils.read_user_cards` is not among the sources; modelled from the spec
(§4.4): per attempt it yields `(contains_pattern, pattern, choice, rank,
valid)`, abstracted here as an oracle field. -/
structure Attempt where
  patInput : Pattern
  charsValid : Bool
  parse : Bool × Pattern × Hand × ℤ × Bool
deriving Repr, DecidableEq

/-- Return value of `UserPlayer.move` together with the player's free flag
afterwards. -/
structure UserResult where
  contains_pattern : Bool
  pattern : Option Pattern
  choice : Hand
  leading_rank : ℤ
  newHand : Hand
  free : Bool
deriving Repr, DecidableEq

/-- The input loop of `UserPlayer.move`: while free, a pattern not in the
moveset restarts the loop (free is still set, the leading rank was reset);
unknown card tokens or a parse marked invalid restart it as well; the first
valid attempt exits.  `none` models running out of input (the source would
block forever). -/
def userLoop (ms : List Pattern) (free : Bool) (pattern : Option Pattern) (lr : ℤ) :
    List Attempt → Option (Bool × Option Pattern × Hand × ℤ × ℤ)
  | [] => none
  | a :: rest =>
    if free then
      if a.patInput ∈ ms then
        if a.charsValid then
          match a.parse with
          | (c, p, ch, ur, true) => some (c, some p, ch, ur, -1)
          | (_, _, _, _, false) => userLoop ms free pattern (-1) rest
        else userLoop ms free pattern (-1) rest
      else userLoop ms free pattern (-1) rest
    else
      if a.charsValid then
        match a.parse with
        | (c, p, ch, ur, true) => some (c, some p, ch, ur, lr)
        | (_, _, _, _, false) => userLoop ms free pattern lr rest
      else userLoop ms free pattern lr rest

/-- `UserPlayer.move`: run the input loop; after it exits the player is no
longer free to move (`self.free = False`, unconditionally); on a play the
choice is subtracted from the hand and the leading rank becomes the played
rank. -/
def user_move (ms : List Pattern) (hand : Hand) (free : Bool)
    (pattern : Option Pattern) (lr : ℤ) (attempts : List Attempt) :
    Option UserResult :=
  match userLoop ms free pattern lr attempts with
  | none => none
  | some (c, p, ch, ur, lr') =>
    if c then some ⟨c, p, ch, ur, subCount hand ch, false⟩
    else some ⟨c, p, ch, lr', hand, false⟩

/-- `List.find?` over `List.range n` returns the least satisfying index. -/
theorem find?_range_least (p : ℕ → Bool) :
    ∀ (n r : ℕ), (List.range n).find? p = some r →
      p r = true ∧ ∀ r', p r' = true → r ≤ r' := by
  intro n
  induction n with
  | zero => intro r h; simp [List.range_zero] at h
  | succ m ih =>
    intro r h
    rw [List.range_succ, List.find?_append] at h
    cases hfind : (List.range m).find? p with
    | some r₀ =>
      rw [hfind, Option.or_some] at h
      exact ih r (hfind.trans h)
    | none =>
      rw [hfind, Option.none_or] at h

      have hnone := List.find?_eq_none.mp hfind
      have hr : r = m := by
        by_cases hp : p m = true
        · simp [List.find?, hp] at h; omega
        · simp [List.find?, Bool.of_not_eq_true hp] at h
      subst hr
      have hp : p r = true := by
        by_cases hp : p r = true
        · exact hp
        · simp [List.find?, Bool.of_not_eq_true hp] at h
      refine ⟨hp, ?_⟩
      intro r' hr'
      by_contra hlt
      exact (hnone r' (List.mem_range.mpr (by omega))) hr'

theorem svc_found_eq (hand : Hand) (pat : Pattern) (lr : ℤ) {r : ℕ}
    (hfind : (List.range hand.length).find? (validStart hand pat lr) = some r) :
    smallest_valid_choice hand pat lr =
      (true, pat, choiceVec hand.length pat r, ((r : ℕ) : ℤ)) := by
  simp [smallest_valid_choice, hfind, repRank]

theorem svc_not_found_eq (hand : Hand) (pat : Pattern) (lr : ℤ)
    (hfind : (List.range hand.length).find? (validStart hand pat lr) = none) :
    smallest_valid_choice hand pat lr =
      (false, pat, List.replicate hand.length 0, lr) := by
  simp [smallest_valid_choice, hfind]

/-- C1. Outrank correctness: for every hand, pattern and non-"none"
`leading_rank`, if `smallest_valid_choice` reports found, the representative
rank of the returned choice strictly exceeds `leading_rank`. -/
theorem outrank_correct (hand : Hand) (pat : Pattern) (lr : ℤ) (h0 : 0 ≤ lr)
    (hf : (smallest_valid_choice hand pat lr).1 = true) :
    lr < (smallest_valid_choice hand pat lr).2.2.2 := by
  cases hfind : (List.range hand.length).find? (validStart hand pat lr) with
  | none => rw [svc_not_found_eq hand pat lr hfind] at hf; exact absurd hf (by simp)
  | some r =>
    rw [svc_found_eq hand pat lr hfind]
    have hp := List.find?_some hfind
    have hout : outranks r lr = true := (Bool.and_eq_true _ _ |>.mp hp).2
    simpa [outranks, repRank] using hout

/-- Witness for C1 at a concrete input. -/
theorem outrank_correct_witness :
    (0 : ℤ) ≤ 0 ∧ (smallest_valid_choice [0, 1] ⟨1, 1⟩ 0).1 = true ∧
      (0 : ℤ) < (smallest_valid_choice [0, 1] ⟨1, 1⟩ 0).2.2.2 :=
  ⟨le_refl 0, by decide, outrank_correct [0, 1] ⟨1, 1⟩ 0 (le_refl 0) (by decide)⟩

/-- C2. Minimality: if `smallest_valid_choice` reports found, the returned
choice is a valid candidate and, among all candidate starting ranks in the hand
that realize the pattern and satisfy the outrank constraint, its representative
rank is the lowest (candidates are tried in ascending rank order). -/
theorem svc_minimal (hand : Hand) (pat : Pattern) (lr : ℤ)
    (hf : (smallest_valid_choice hand pat lr).1 = true) :
    ∃ r : ℕ, smallest_valid_choice hand pat lr =
        (true, pat, choiceVec hand.length pat r, ((r : ℕ) : ℤ)) ∧
      validStart hand pat lr r = true ∧
      ∀ r' : ℕ, validStart hand pat lr r' = true → r ≤ r' := by
  cases hfind : (List.range hand.length).find? (validStart hand pat lr) with
  | none => rw [svc_not_found_eq hand pat lr hfind] at hf; exact absurd hf (by simp)
  | some r =>
    have hleast := find?_range_least (validStart hand pat lr) hand.length r hfind
    exact ⟨r, svc_found_eq hand pat lr hfind, hleast.1, hleast.2⟩

/-- Witness for C2 at a concrete input. -/
theorem svc_minimal_witness :
    (smallest_valid_choice [0, 1, 1] ⟨1, 1⟩ 0).1 = true ∧
      ∃ r : ℕ, smallest_valid_choice [0, 1, 1] ⟨1, 1⟩ 0 =
          (true, ⟨1, 1⟩, choiceVec 3 ⟨1, 1⟩ r, ((r : ℕ) : ℤ)) ∧
        validStart [0, 1, 1] ⟨1, 1⟩ 0 r = true ∧
        ∀ r' : ℕ, validStart [0, 1, 1] ⟨1, 1⟩ 0 r' = true → r ≤ r' :=
  ⟨by decide, svc_minimal [0, 1, 1] ⟨1, 1⟩ 0 (by decide)⟩

theorem getD_set_eq {α : Type} (d : α) :
    ∀ (l : List α) (i j : ℕ) (x : α),
      (l.set i x).getD j d = if i = j ∧ j < l.length then x else l.getD j d := by
  intro l
  induction l with
  | nil => intro i j x; simp
  | cons a t ih =>
    intro i j x
    cases i with
    | zero =>
      cases j with
      | zero => simp
      | succ j => simp
    | succ i =>
      cases j with
      | zero => simp
      | succ j =>
        simp only [List.set_cons_succ, List.getD_cons_succ, List.length_cons]
        rw [ih i j x]
        by_cases hij : i = j
        · subst hij; simp
        · simp [hij, Nat.succ_inj, fun h => hij (Nat.succ_injective h)]

theorem sum_map_set {α : Type} (f : α → ℕ) (d : α) :
    ∀ (l : List α) (i : ℕ) (x : α), i < l.length →
      ((l.set i x).map f).sum + f (l.getD i d) = (l.map f).sum + f x := by
  intro l
  induction l with
  | nil => intro i x h; simp at h
  | cons a t ih =>
    intro i x h
    cases i with
    | zero => simp; omega
    | succ i =>
      have hlt : i < t.length := by simpa using h
      have := ih i x hlt
      simp only [List.set_cons_succ, List.map_cons, List.sum_cons, List.getD_cons_succ]
      omega

theorem getD_le_sum : ∀ (l : List ℕ) (i : ℕ), l.getD i 0 ≤ l.sum := by
  intro l
  induction l with
  | nil => intro i; simp
  | cons a t ih =>
    intro i
    cases i with
    | zero => simp
    | succ i =>
      simp only [List.getD_cons_succ, List.sum_cons]
      exact le_trans (ih i) (Nat.le_add_left _ _)

theorem sum_pos_exists : ∀ (l : List ℕ), 0 < l.sum →
    ∃ i, i < l.length ∧ 0 < l.getD i 0 := by
  intro l
  induction l with
  | nil => intro h; simp at h
  | cons a t ih =>
    intro h
    by_cases ha : 0 < a
    · exact ⟨0, by simp, by simpa using ha⟩
    · have : 0 < t.sum := by simp at h; omega
      obtain ⟨i, hi, hpos⟩ := ih this
      exact ⟨i + 1, by simpa using hi, by simpa using hpos⟩

theorem subCount_getD : ∀ (h c : List ℕ), c.length = h.length →
    ∀ i, (subCount h c).getD i 0 = h.getD i 0 - c.getD i 0 := by
  intro h
  induction h with
  | nil => intro c hc i; simp [subCount]
  | cons a t ih =>
    intro c hc i
    cases c with
    | nil => simp at hc
    | cons b cs =>
      cases i with
      | zero => simp [subCount]
      | succ i => simpa [subCount] using ih cs (by simpa using hc) i

theorem subCount_length : ∀ (h c : List ℕ), c.length = h.length →
    (subCount h c).length = h.length := by
  intro h c hc
  simp [subCount, hc]

theorem subCount_sum : ∀ (h c : List ℕ), c.length = h.length →
    (∀ i, c.getD i 0 ≤ h.getD i 0) → (subCount h c).sum + c.sum = h.sum := by
  intro h
  induction h with
  | nil =>
    intro c hc _
    cases c with
    | nil => simp [subCount]
    | cons b cs => simp at hc
  | cons a t ih =>
    intro c hc hle
    cases c with
    | nil => simp at hc
    | cons b cs =>
      have h0 : b ≤ a := by simpa using hle 0
      have htail := ih cs (by simpa using hc) (fun i => by simpa using hle (i + 1))
      simp only [subCount, List.zipWith_cons_cons, List.sum_cons] at *
      omega

theorem choiceVec_getD (n : ℕ) (pat : Pattern) (r i : ℕ) :
    (choiceVec n pat r).getD i 0 =
      if i < n ∧ r ≤ i ∧ i < r + pat.width then pat.copies else 0 := by
  unfold choiceVec
  by_cases hi : i < n
  · rw [List.getD_eq_getElem?_getD, List.getElem?_map, List.getElem?_range hi]
    by_cases hcond : r ≤ i ∧ i < r + pat.width
    · simp [hi, hcond]
    · simp [hi, hcond]
  · rw [List.getD_eq_getElem?_getD]
    have : ((List.range n).map
        (fun i => if r ≤ i ∧ i < r + pat.width then pat.copies else 0))[i]? = none := by
      rw [List.getElem?_eq_none]
      simpa using Nat.le_of_not_lt hi
    simp [this, hi]

theorem choiceVec_length (n : ℕ) (pat : Pattern) (r : ℕ) :
    (choiceVec n pat r).length = n := by
  simp [choiceVec]

theorem canStart_parts (hand : Hand) (pat : Pattern) (r : ℕ)
    (h : canStart hand pat r = true) :
    r + pat.width ≤ hand.length ∧
      ∀ k, k < pat.width → pat.copies ≤ hand.getD (r + k) 0 := by
  have := (Bool.and_eq_true _ _).mp h
  refine ⟨by simpa using this.1, ?_⟩
  intro k hk
  have := List.all_eq_true.mp this.2 k (List.mem_range.mpr hk)
  simpa using this

theorem choiceVec_le_hand (hand : Hand) (pat : Pattern) (r : ℕ)
    (h : canStart hand pat r = true) :
    ∀ i, (choiceVec hand.length pat r).getD i 0 ≤ hand.getD i 0 := by
  intro i
  obtain ⟨hlen, hcop⟩ := canStart_parts hand pat r h
  rw [choiceVec_getD]
  by_cases hcond : i < hand.length ∧ r ≤ i ∧ i < r + pat.width
  · have := hcop (i - r) (by omega)
    rw [if_pos hcond]
    have : pat.copies ≤ hand.getD i 0 := by
      have heq : r + (i - r) = i := by omega
      rwa [heq] at this
    exact this
  · rw [if_neg hcond]; exact Nat.zero_le _

theorem choiceVec_sum_pos (hand : Hand) (pat : Pattern) (r : ℕ)
    (h : canStart hand pat r = true) (hw : 1 ≤ pat.width) (hc : 1 ≤ pat.copies) :
    0 < (choiceVec hand.length pat r).sum := by
  obtain ⟨hlen, _⟩ := canStart_parts hand pat r h
  have hr : (choiceVec hand.length pat r).getD r 0 = pat.copies := by
    rw [choiceVec_getD, if_pos]
    exact ⟨by omega, le_refl r, by omega⟩
  have := getD_le_sum (choiceVec hand.length pat r) r
  omega

theorem svc_success_spec (hand : Hand) (pat : Pattern) (lr : ℤ)
    (hf : (smallest_valid_choice hand pat lr).1 = true) :
    ∃ r, (smallest_valid_choice hand pat lr).2.2.1 = choiceVec hand.length pat r ∧
      canStart hand pat r = true ∧
      (smallest_valid_choice hand pat lr).2.1 = pat := by
  cases hfind : (List.range hand.length).find? (validStart hand pat lr) with
  | none => rw [svc_not_found_eq hand pat lr hfind] at hf; exact absurd hf (by simp)
  | some r =>
    have hp := List.find?_some hfind
    have hcan : canStart hand pat r = true := ((Bool.and_eq_true _ _).mp hp).1
    rw [svc_found_eq hand pat lr hfind]
    exact ⟨r, rfl, hcan, rfl⟩

theorem svc_single_found (hand : Hand) (hpos : 0 < hand.sum) :
    (smallest_valid_choice hand ⟨1, 1⟩ (-1)).1 = true := by
  obtain ⟨i, hi, hposi⟩ := sum_pos_exists hand hpos
  have hvalid : validStart hand ⟨1, 1⟩ (-1) i = true := by
    simp only [validStart, canStart, outranks, repRank, Bool.and_eq_true,
      decide_eq_true_eq, List.all_eq_true]
    refine ⟨⟨by omega, ?_⟩, by omega⟩
    intro k hk
    have : k = 0 := by simpa using List.mem_range.mp hk
    subst this
    simpa using hposi
  have hsome : ((List.range hand.length).find? (validStart hand ⟨1, 1⟩ (-1))).isSome := by
    rw [List.find?_isSome]
    exact ⟨i, List.mem_range.mpr hi, hvalid⟩
  cases hfind : (List.range hand.length).find? (validStart hand ⟨1, 1⟩ (-1)) with
  | none => rw [hfind] at hsome; simp at hsome
  | some r => rw [svc_found_eq hand ⟨1, 1⟩ (-1) hfind]

theorem tryPatterns_success_spec (hand : Hand) :
    ∀ ms : List Pattern, (tryPatterns hand ms).1 = true →
      ∃ p, p ∈ ms ∧ ∃ r,
        (tryPatterns hand ms).2.2.1 = choiceVec hand.length p r ∧
        canStart hand p r = true ∧
        (tryPatterns hand ms).2.1 = some p := by
  intro ms
  induction ms with
  | nil => intro h; simp [tryPatterns] at h
  | cons p rest ih =>
    intro h
    by_cases hsucc : (smallest_valid_choice hand p).1 = true ∨ rest = []
    · rw [tryPatterns, if_pos hsucc] at h ⊢
      obtain ⟨r, hch, hcan, hpat⟩ := svc_success_spec hand p (-1) h
      exact ⟨p, List.mem_cons_self p rest, r, by simpa using hch, hcan,
        by simp [hpat]⟩
    · rw [tryPatterns, if_neg hsucc] at h ⊢
      obtain ⟨q, hq, rest'⟩ := ih h
      exact ⟨q, List.mem_cons_of_mem p hq, rest'⟩

theorem tryPatterns_pattern_spec (hand : Hand) :
    ∀ ms : List Pattern, (tryPatterns hand ms).2.1 = none ∨
      ∃ p, p ∈ ms ∧ (tryPatterns hand ms).2.1 = some p := by
  intro ms
  induction ms with
  | nil => left; simp [tryPatterns]
  | cons p rest ih =>
    by_cases hsucc : (smallest_valid_choice hand p).1 = true ∨ rest = []
    · right
      rw [tryPatterns, if_pos hsucc]
      have := (svc_not_found_eq hand p (-1))
      refine ⟨p, List.mem_cons_self p rest, ?_⟩
      cases hfind : (List.range hand.length).find? (validStart hand p (-1)) with
      | none => simp [svc_not_found_eq hand p (-1) hfind]
      | some r => simp [svc_found_eq hand p (-1) hfind]
    · rw [tryPatterns, if_neg hsucc]
      rcases ih with h | ⟨q, hq, h⟩
      · left; exact h
      · right; exact ⟨q, List.mem_cons_of_mem p hq, h⟩

theorem tryPatterns_guarantee (hand : Hand) :
    ∀ ms : List Pattern, (Pattern.mk 1 1) ∈ ms → 0 < hand.sum →
      (tryPatterns hand ms).1 = true := by
  intro ms
  induction ms with
  | nil => intro h; simp at h
  | cons p rest ih =>
    intro hmem hpos
    by_cases hsucc : (smallest_valid_choice hand p).1 = true ∨ rest = []
    · rw [tryPatterns, if_pos hsucc]
      rcases hsucc with h | h
      · exact h
      · have hp : p = Pattern.mk 1 1 := by
          rcases List.mem_cons.mp hmem with h' | h'
          · exact h'.symm
          · rw [h] at h'; simp at h'
        rw [hp]
        exact svc_single_found hand hpos
    · rw [tryPatterns, if_neg hsucc]
      push_neg at hsucc
      have hp : Pattern.mk 1 1 ∈ rest := by
        rcases List.mem_cons.mp hmem with h' | h'
        · exfalso
          rw [← h'] at hsucc
          exact absurd (svc_single_found hand hpos) (by simpa using hsucc.1)
        · exact h'
      exact ih hp hpos

theorem naive_move_skip (hand : Hand) (free : Bool) (ms : List Pattern)
    (pattern : Option Pattern) (lr : ℤ)
    (h : (naive_move hand free ms pattern lr).contains_pattern = false) :
    (naive_move hand free ms pattern lr).newHand = hand := by
  unfold naive_move at *
  cases free with
  | true =>
    simp only [if_pos] at *
    by_cases hc : (tryPatterns hand ms).1 = true
    · simp [hc] at h
    · simp [hc]
  | false =>
    simp only [Bool.false_eq_true, if_neg, if_false] at *
    cases pattern with
    | none => rfl
    | some p =>
      by_cases hc : (smallest_valid_choice hand p lr).1 = true
      · simp [hc] at h
      · simp [hc]

theorem naive_move_success_spec (hand : Hand) (free : Bool) (ms : List Pattern)
    (pattern : Option Pattern) (lr : ℤ)
    (h : (naive_move hand free ms pattern lr).contains_pattern = true) :
    ∃ p r, canStart hand p r = true ∧
      (naive_move hand free ms pattern lr).choice = choiceVec hand.length p r ∧
      (naive_move hand free ms pattern lr).newHand =
        subCount hand (choiceVec hand.length p r) ∧
      (naive_move hand free ms pattern lr).pattern = some p ∧
      (free = true → p ∈ ms) ∧ (free = false → pattern = some p) := by
  unfold naive_move at *
  cases free with
  | true =>
    simp only [if_pos] at *
    by_cases hc : (tryPatterns hand ms).1 = true
    · obtain ⟨p, hp, r, hch, hcan, hpat⟩ := tryPatterns_success_spec hand ms hc
      simp only [hc, if_pos, if_true]
      exact ⟨p, r, hcan, hch, by rw [hch], hpat, fun _ => hp, by simp⟩
    · simp [hc] at h
  | false =>
    simp only [Bool.false_eq_true, if_neg, if_false] at *
    cases pattern with
    | none => simp at h
    | some p =>
      by_cases hc : (smallest_valid_choice hand p lr).1 = true
      · obtain ⟨r, hch, hcan, hpat⟩ := svc_success_spec hand p lr hc
        simp only [hc, if_pos, if_true]
        exact ⟨p, r, hcan, hch, by rw [hch], by simp [hpat], by simp, by simp⟩
      · simp [hc] at h

theorem naive_move_free_guarantee (hand : Hand) (ms : List Pattern)
    (pattern : Option Pattern) (lr : ℤ)
    (hmem : (Pattern.mk 1 1) ∈ ms) (hpos : 0 < hand.sum) :
    (naive_move hand true ms pattern lr).contains_pattern = true := by
  unfold naive_move
  have := tryPatterns_guarantee hand ms hmem hpos
  simp [this]

theorem naive_move_free_ignores_lr (hand : Hand) (ms : List Pattern)
    (pattern : Option Pattern) (lr lr' : ℤ) :
    naive_move hand true ms pattern lr = naive_move hand true ms pattern lr' := by
  simp [naive_move]

theorem svc_pattern_eq (hand : Hand) (p : Pattern) (lr : ℤ) :
    (smallest_valid_choice hand p lr).2.1 = p := by
  cases hfind : (List.range hand.length).find? (validStart hand p lr) with
  | none => simp [svc_not_found_eq hand p lr hfind]
  | some r => simp [svc_found_eq hand p lr hfind]

theorem naive_move_pattern_good (hand : Hand) (free : Bool) (ms : List Pattern)
    (pattern : Option Pattern) (lr : ℤ)
    (hgood : ∀ p ∈ ms, 1 ≤ p.width ∧ 1 ≤ p.copies) (hpat : GoodPat pattern) :
    GoodPat (naive_move hand free ms pattern lr).pattern := by
  cases free with
  | true =>
    have hres : (naive_move hand true ms pattern lr).pattern =
        (tryPatterns hand ms).2.1 := by
      unfold naive_move
      by_cases hc : (tryPatterns hand ms).1 = true <;> simp [hc]
    rw [hres]
    rcases tryPatterns_pattern_spec hand ms with h | ⟨p, hp, h⟩
    · rw [h]; trivial
    · rw [h]; exact hgood p hp
  | false =>
    unfold naive_move
    cases pattern with
    | none => simp [GoodPat]
    | some p =>
      have hpassthrough := svc_pattern_eq hand p lr
      by_cases hc : (smallest_valid_choice hand p lr).1 = true <;>
        simp [hc, hpassthrough] <;> exact hpat

theorem naive_move_success_conserve (hand : Hand) (free : Bool) (ms : List Pattern)
    (pattern : Option Pattern) (lr : ℤ)
    (h : (naive_move hand free ms pattern lr).contains_pattern = true) :
    ∀ i, (naive_move hand free ms pattern lr).newHand.getD i 0 +
      (naive_move hand free ms pattern lr).choice.getD i 0 = hand.getD i 0 := by
  obtain ⟨p, r, hcan, hch, hnew, _, _, _⟩ :=
    naive_move_success_spec hand free ms pattern lr h
  intro i
  rw [hch, hnew, subCount_getD hand _ (choiceVec_length _ _ _)]
  have hle := choiceVec_le_hand hand p r hcan i
  omega

theorem naive_move_success_sum_lt (hand : Hand) (free : Bool) (ms : List Pattern)
    (pattern : Option Pattern) (lr : ℤ)
    (hgood : ∀ p ∈ ms, 1 ≤ p.width ∧ 1 ≤ p.copies) (hpat : GoodPat pattern)
    (h : (naive_move hand free ms pattern lr).contains_pattern = true) :
    (naive_move hand free ms pattern lr).newHand.sum < hand.sum := by
  obtain ⟨p, r, hcan, hch, hnew, hsome, hfree, hnfree⟩ :=
    naive_move_success_spec hand free ms pattern lr h
  have hpgood : 1 ≤ p.width ∧ 1 ≤ p.copies := by
    cases free with
    | true => exact hgood p (hfree rfl)
    | false =>
      have := hnfree rfl
      rw [this] at hpat
      exact hpat
  have hsum := subCount_sum hand (choiceVec hand.length p r)
    (choiceVec_length _ _ _) (choiceVec_le_hand hand p r hcan)
  have hpos := choiceVec_sum_pos hand p r hcan hpgood.1 hpgood.2
  rw [hnew]
  omega

theorem freeCheck_players_length (s : GameState) :
    (freeCheck s).players.length = s.players.length := by
  unfold freeCheck
  split
  · simp [setFree]
  · rfl

theorem freeCheck_hand (s : GameState) (i : ℕ) :
    (getPlayer (freeCheck s).players i).hand = (getPlayer s.players i).hand := by
  unfold freeCheck
  split
  · simp only [getPlayer, setFree]
    rw [getD_set_eq]
    split
    · rename_i hcond
      rw [hcond.1]
    · rfl
  · rfl

theorem freeCheck_fields (s : GameState) :
    (freeCheck s).currPlayer = s.currPlayer ∧
    (freeCheck s).pattern = s.pattern ∧
    (freeCheck s).leadingRank = s.leadingRank ∧
    (freeCheck s).history = s.history := by
  unfold freeCheck
  split <;> exact ⟨rfl, rfl, rfl, rfl⟩

theorem freeCheck_skip (s : GameState) :
    (freeCheck s).skipCount =
      if s.skipCount = s.players.length - 1 then 0 else s.skipCount := by
  unfold freeCheck
  split <;> simp_all

theorem freeCheck_free_of_trigger (s : GameState)
    (h : s.skipCount = s.players.length - 1) (hc : s.currPlayer < s.players.length) :
    (getPlayer (freeCheck s).players s.currPlayer).free = true := by
  unfold freeCheck
  rw [if_pos h]
  simp only [getPlayer, setFree]
  rw [getD_set_eq]
  rw [if_pos ⟨rfl, hc⟩]

theorem step_fst_players (ms : List Pattern) (s : GameState) :
    (step ms s).1.players =
      (freeCheck s).players.set s.currPlayer ⟨(moverResult ms s).newHand, false⟩ := by
  unfold step
  split <;> simp [postMove]

theorem step_fst_history (ms : List Pattern) (s : GameState) :
    (step ms s).1.history = s.history ++ [stepEntry ms s] := by
  unfold step
  have hfc := (freeCheck_fields s).2.2.2
  split <;> simp [postMove, hfc]

theorem step_snd_iff (ms : List Pattern) (s : GameState) :
    (step ms s).2 = true ↔ (moverResult ms s).newHand.sum = 0 := by
  unfold step
  split <;> simp_all

theorem step_fst_curr_over (ms : List Pattern) (s : GameState)
    (h : (step ms s).2 = true) : (step ms s).1.currPlayer = s.currPlayer := by
  have hsum := (step_snd_iff ms s).mp h
  simp only [step, if_pos hsum]
  simp [postMove, (freeCheck_fields s).1]

theorem step_fst_curr_cont (ms : List Pattern) (s : GameState)
    (h : (step ms s).2 = false) :
    (step ms s).1.currPlayer = (s.currPlayer + 1) % s.players.length := by
  have hsum : ¬(moverResult ms s).newHand.sum = 0 := by
    intro hc
    rw [(step_snd_iff ms s).mpr hc] at h
    exact absurd h (by simp)
  simp only [step, if_neg hsum]

theorem step_fst_skip (ms : List Pattern) (s : GameState) :
    (step ms s).1.skipCount =
      if (moverResult ms s).contains_pattern then 0
      else (freeCheck s).skipCount + 1 := by
  unfold step
  split <;> simp [postMove]

theorem step_fst_pattern (ms : List Pattern) (s : GameState) :
    (step ms s).1.pattern = (moverResult ms s).pattern := by
  unfold step
  split <;> simp [postMove]

theorem moverResult_eq (ms : List Pattern) (s : GameState) :
    moverResult ms s =
      naive_move (getPlayer s.players s.currPlayer).hand
        (getPlayer (freeCheck s).players s.currPlayer).free
        ms s.pattern s.leadingRank := by
  simp only [moverResult]
  rw [(freeCheck_fields s).2.1, (freeCheck_fields s).2.2.1, freeCheck_hand]

theorem getPlayer_mem (ps : List PlayerSt) (i : ℕ) (h : i < ps.length) :
    getPlayer ps i ∈ ps := by
  unfold getPlayer
  rw [List.getD_eq_getElem?_getD, List.getElem?_eq_getElem h]
  exact List.getElem_mem h

theorem freeCheck_id (s : GameState) (h : s.skipCount ≠ s.players.length - 1) :
    freeCheck s = s := by
  unfold freeCheck
  rw [if_neg h]

theorem step_players_length (ms : List Pattern) (s : GameState) :
    (step ms s).1.players.length = s.players.length := by
  rw [step_fst_players]
  simp [freeCheck_players_length]

theorem freeCheck_hand_pos (s : GameState)
    (hpos : ∀ pl ∈ s.players, 0 < pl.hand.sum)
    (hc : s.currPlayer < s.players.length) :
    ∀ pl ∈ (freeCheck s).players, 0 < pl.hand.sum := by
  intro pl hmem
  unfold freeCheck at hmem
  by_cases htrig : s.skipCount = s.players.length - 1
  · rw [if_pos htrig] at hmem
    simp only [setFree] at hmem
    rcases List.mem_or_eq_of_mem_set hmem with h | h
    · exact hpos pl h
    · rw [h]
      simpa using hpos _ (getPlayer_mem s.players s.currPlayer hc)
  · rw [if_neg htrig] at hmem
    exact hpos pl hmem

theorem step_progress (ms : List Pattern) (s : GameState)
    (hInv : Inv s) (hms : GoodShuffle ms) :
    (step ms s).2 = true ∨
      (Inv (step ms s).1 ∧ measureOf (step ms s).1 < measureOf s) := by
  obtain ⟨h2, hcurr, hskip, hpos, hpat⟩ := hInv
  have hn2 : 2 ≤ s.players.length := h2
  have hmover_pos : 0 < (getPlayer s.players s.currPlayer).hand.sum :=
    hpos _ (getPlayer_mem s.players s.currPlayer hcurr)
  have hfclen : (freeCheck s).players.length = s.players.length :=
    freeCheck_players_length s
  have hcurr' : s.currPlayer < (freeCheck s).players.length := by omega
  -- total card count bookkeeping for the updated player list
  have htot := sum_map_set (fun pl => pl.hand.sum) ⟨[], false⟩
    (freeCheck s).players s.currPlayer ⟨(moverResult ms s).newHand, false⟩ hcurr'
  have hfc_tot : ((freeCheck s).players.map (fun pl => pl.hand.sum)).sum =
      totalCards s := by
    unfold totalCards freeCheck
    by_cases htrig : s.skipCount = s.players.length - 1
    · rw [if_pos htrig]
      simp only [setFree]
      have := sum_map_set (fun pl => pl.hand.sum) ⟨[], false⟩
        s.players s.currPlayer ⟨(getPlayer s.players s.currPlayer).hand, true⟩ hcurr
      simp only [getPlayer] at this ⊢
      omega
    · rw [if_neg htrig]
  have hfc_hand : ((freeCheck s).players.getD s.currPlayer ⟨[], false⟩).hand =
      (getPlayer s.players s.currPlayer).hand := freeCheck_hand s s.currPlayer
  have htotal_step : totalCards (step ms s).1 +
      (getPlayer s.players s.currPlayer).hand.sum =
      totalCards s + (moverResult ms s).newHand.sum := by
    simp only [] at htot
    rw [hfc_hand] at htot
    unfold totalCards
    rw [step_fst_players]
    unfold totalCards at hfc_tot
    omega
  have hgoodms := hms.2
  by_cases hc : (moverResult ms s).contains_pattern = true
  · -- a successful move
    have hlt : (moverResult ms s).newHand.sum <
        (getPlayer s.players s.currPlayer).hand.sum := by
      rw [moverResult_eq] at hc ⊢
      exact naive_move_success_sum_lt _ _ _ _ _ hgoodms hpat hc
    by_cases hover : (step ms s).2 = true
    · left; exact hover
    · right
      have hover' : (step ms s).2 = false := by
        cases hb : (step ms s).2
        · rfl
        · exact absurd hb hover
      have hsum_ne : (moverResult ms s).newHand.sum ≠ 0 := by
        intro h0
        exact hover ((step_snd_iff ms s).mpr h0)
      constructor
      · refine ⟨?_, ?_, ?_, ?_, ?_⟩
        · rw [step_players_length]; exact h2
        · rw [step_fst_curr_cont ms s hover', step_players_length]
          exact Nat.mod_lt _ (by omega)
        · rw [step_fst_skip, if_pos hc]
          exact Nat.zero_le _
        · intro pl hmem
          rw [step_fst_players] at hmem
          rcases List.mem_or_eq_of_mem_set hmem with h | h
          · exact freeCheck_hand_pos s hpos hcurr pl h
          · rw [h]; simpa using Nat.pos_of_ne_zero hsum_ne
        · rw [step_fst_pattern, moverResult_eq]
          exact naive_move_pattern_good _ _ _ _ _ hgoodms hpat
      · -- the measure drops: at least one card left the mover's hand
        have htot_lt : totalCards (step ms s).1 < totalCards s := by omega
        unfold measureOf
        rw [step_players_length]
        calc totalCards (step ms s).1 * s.players.length +
              (s.players.length - 1 - (step ms s).1.skipCount)
            < totalCards (step ms s).1 * s.players.length + s.players.length := by
              apply Nat.add_lt_add_left
              omega
          _ = (totalCards (step ms s).1 + 1) * s.players.length := by ring
          _ ≤ totalCards s * s.players.length :=
              Nat.mul_le_mul_right _ (by omega)
          _ ≤ totalCards s * s.players.length +
              (s.players.length - 1 - s.skipCount) := Nat.le_add_right _ _
  · -- a skip
    have hcb : (moverResult ms s).contains_pattern = false := by
      cases hb : (moverResult ms s).contains_pattern
      · rfl
      · exact absurd hb hc
    have hnotrig : s.skipCount ≠ s.players.length - 1 := by
      intro htrig
      have hfree := freeCheck_free_of_trigger s htrig hcurr
      rw [moverResult_eq, hfree] at hcb
      rw [naive_move_free_guarantee _ _ _ _ hms.1 hmover_pos] at hcb
      exact absurd hcb (by simp)
    have hfc_id : freeCheck s = s := freeCheck_id s hnotrig
    have hskip_lt : s.skipCount < s.players.length - 1 := by omega
    have hnew_eq : (moverResult ms s).newHand =
        (getPlayer s.players s.currPlayer).hand := by
      rw [moverResult_eq] at hcb ⊢
      exact naive_move_skip _ _ _ _ _ hcb
    have hsum_ne : (moverResult ms s).newHand.sum ≠ 0 := by
      rw [hnew_eq]; omega
    have hover' : (step ms s).2 = false := by
      cases hb : (step ms s).2
      · rfl
      · exact absurd ((step_snd_iff ms s).mp hb) hsum_ne
    right
    constructor
    · refine ⟨?_, ?_, ?_, ?_, ?_⟩
      · rw [step_players_length]; exact h2
      · rw [step_fst_curr_cont ms s hover', step_players_length]
        exact Nat.mod_lt _ (by omega)
      · rw [step_fst_skip, if_neg (by simp [hcb]), hfc_id, step_players_length]
        omega
      · intro pl hmem
        rw [step_fst_players] at hmem
        rcases List.mem_or_eq_of_mem_set hmem with h | h
        · exact freeCheck_hand_pos s hpos hcurr pl h
        · rw [h]; simpa using Nat.pos_of_ne_zero hsum_ne
      · rw [step_fst_pattern, moverResult_eq]
        exact naive_move_pattern_good _ _ _ _ _ hgoodms hpat
    · have htot_eq : totalCards (step ms s).1 = totalCards s := by
        rw [hnew_eq] at htotal_step
        omega
      unfold measureOf
      rw [step_players_length, htot_eq]
      apply Nat.add_lt_add_left
      rw [step_fst_skip, if_neg (by simp [hcb]), hfc_id]
      omega

theorem runGame_terminates (sh : ℕ → List Pattern) (hsh : ∀ t, GoodShuffle (sh t)) :
    ∀ fuel t s, Inv s → measureOf s < fuel →
      ∃ s', runGame sh fuel t s = some s' := by
  intro fuel
  induction fuel with
  | zero => intro t s _ hlt; omega
  | succ f ih =>
    intro t s hInv hlt
    by_cases hover : (step (sh t) s).2 = true
    · exact ⟨(step (sh t) s).1, by simp [runGame, hover]⟩
    · have hover' : (step (sh t) s).2 = false := by
        cases hb : (step (sh t) s).2
        · rfl
        · exact absurd hb hover
      rcases step_progress (sh t) s hInv (hsh t) with h | ⟨hInv', hdec⟩
      · exact absurd h hover
      · obtain ⟨s', hs'⟩ := ih (t + 1) (step (sh t) s).1 hInv' (by omega)
        exact ⟨s', by simp [runGame, hover', hs']⟩

theorem getPlayer_map_hands (hands : List Hand) (i : ℕ) (h : i < hands.length) :
    getPlayer (hands.map (fun h => (⟨h, false⟩ : PlayerSt))) i =
      ⟨hands.getD i [], false⟩ := by
  unfold getPlayer
  rw [List.getD_eq_getElem?_getD, List.getElem?_map,
    List.getElem?_eq_getElem h, List.getD_eq_getElem?_getD,
    List.getElem?_eq_getElem h]
  rfl

theorem getD_mem_of_lt {α : Type} (l : List α) (i : ℕ) (d : α) (h : i < l.length) :
    l.getD i d ∈ l := by
  rw [List.getD_eq_getElem?_getD, List.getElem?_eq_getElem h]
  exact List.getElem_mem h

theorem initState_inv (hands : List Hand) (start : ℕ)
    (h2 : 2 ≤ hands.length) (hstart : start < hands.length)
    (hpos : ∀ h ∈ hands, 0 < h.sum) : Inv (initState hands start) := by
  have hlen : (initState hands start).players.length = hands.length := by
    simp [initState, setFree]
  refine ⟨by omega, by simp [initState, setFree]; exact hstart, Nat.zero_le _, ?_, trivial⟩
  intro pl hmem
  simp only [initState, setFree] at hmem
  rcases List.mem_or_eq_of_mem_set hmem with h | h
  · obtain ⟨hd, hhd, rfl⟩ := List.mem_map.mp h
    exact hpos hd hhd
  · rw [h, getPlayer_map_hands hands start hstart]
    exact hpos _ (getD_mem_of_lt hands start [] hstart)

theorem getD_pos_lt (l : List ℕ) (i : ℕ) (h : 0 < l.getD i 0) : i < l.length := by
  by_contra hge
  rw [List.getD_eq_getElem?_getD, List.getElem?_eq_none (by omega)] at h
  simp at h

theorem getD_replicate_zero (n j : ℕ) : (List.replicate n (0 : ℕ)).getD j 0 = 0 := by
  by_cases hj : j < n
  · rw [List.getD_eq_getElem?_getD, List.getElem?_eq_getElem (by simpa using hj)]
    simp
  · rw [List.getD_eq_getElem?_getD, List.getElem?_eq_none (by simpa using Nat.le_of_not_lt hj)]
    rfl

theorem dealCard_spec (N : ℕ) (s : ℕ → ℕ) :
    ∀ fuel t freq idx t' freq',
      dealCard N s fuel t freq = some (idx, t', freq') →
      idx < freq.length ∧ 0 < freq.getD idx 0 ∧ freq' = decr freq idx := by
  intro fuel
  induction fuel with
  | zero => intro t freq idx t' freq' h; simp [dealCard] at h
  | succ f ih =>
    intro t freq idx t' freq' h
    simp only [dealCard] at h
    by_cases hpos : 0 < freq.getD (s t % N) 0
    · rw [if_pos hpos] at h
      have h' := Option.some.inj h
      injection h' with ha hrest
      injection hrest with hb hc
      subst ha
      exact ⟨getD_pos_lt freq _ hpos, hpos, hc.symm⟩
    · rw [if_neg hpos] at h
      exact ih (t + 1) freq idx t' freq' h

theorem dealHand_conserve (N : ℕ) (s : ℕ → ℕ) :
    ∀ count fuel t freq hand t' freq' hand',
      dealHand N s count fuel t freq hand = some (t', freq', hand') →
      hand.length = freq.length →
      (∀ j, freq'.getD j 0 + hand'.getD j 0 = freq.getD j 0 + hand.getD j 0) ∧
        freq'.length = freq.length ∧ hand'.length = hand.length := by
  intro count
  induction count with
  | zero =>
    intro fuel t freq hand t' freq' hand' h _
    simp only [dealHand] at h
    have h' := Option.some.inj h
    injection h' with ha hrest
    injection hrest with hb hc
    subst hb
    subst hc
    exact ⟨fun j => rfl, rfl, rfl⟩
  | succ c ih =>
    intro fuel t freq hand t' freq' hand' h hlen
    simp only [dealHand] at h
    cases hdc : dealCard N s fuel t freq with
    | none => rw [hdc] at h; simp at h
    | some r =>
      obtain ⟨idx, t1, f1⟩ := r
      rw [hdc] at h
      simp only at h
      obtain ⟨hidx, hpos, hf1⟩ := dealCard_spec N s fuel t freq idx t1 f1 hdc
      have hidx_hand : idx < hand.length := by omega
      have hlen1 : (incr hand idx).length = hand.length := by simp [incr]
      have hflen1 : f1.length = freq.length := by rw [hf1]; simp [decr]
      obtain ⟨hcons, hflen, hhlen⟩ := ih fuel t1 f1 (incr hand idx) t' freq' hand' h
        (by omega)
      refine ⟨?_, by omega, by omega⟩
      intro j
      have h1 := hcons j
      have hf1j : f1.getD j 0 + (if idx = j then 1 else 0) = freq.getD j 0 := by
        rw [hf1]
        unfold decr
        rw [getD_set_eq]
        by_cases hij : idx = j
        · subst hij
          rw [if_pos ⟨rfl, hidx⟩, if_pos rfl]
          omega
        · rw [if_neg (by tauto), if_neg hij]
          omega
      have hh1j : (incr hand idx).getD j 0 = hand.getD j 0 + (if idx = j then 1 else 0) := by
        unfold incr
        rw [getD_set_eq]
        by_cases hij : idx = j
        · subst hij
          rw [if_pos ⟨rfl, hidx_hand⟩, if_pos rfl]
        · rw [if_neg (by tauto), if_neg hij]
          omega
      rw [hh1j] at h1
      omega

theorem dealAll_conserve (N : ℕ) (s : ℕ → ℕ) (fuel : ℕ) (cpp : List ℕ)
    (freq0 : List ℕ) (hands : List Hand) (hlen : freq0.length = N)
    (h : dealAll N s fuel cpp freq0 = some hands) :
    ∀ j, (hands.map (fun hd => hd.getD j 0)).sum = freq0.getD j 0 := by
  unfold dealAll at h
  cases h1 : dealHand N s (cpp.getD 0 0) fuel 0 freq0 (List.replicate N 0) with
  | none => rw [h1] at h; simp at h
  | some r1 =>
    obtain ⟨t1, f1, h0⟩ := r1
    rw [h1] at h
    simp only at h
    cases h2 : dealHand N s (cpp.getD 1 0) fuel t1 f1 (List.replicate N 0) with
    | none => rw [h2] at h; simp at h
    | some r2 =>
      obtain ⟨t2, f2, hh1⟩ := r2
      rw [h2] at h
      simp only at h
      cases h3 : dealHand N s (cpp.getD 2 0) fuel t2 f2 (List.replicate N 0) with
      | none => rw [h3] at h; simp at h
      | some r3 =>
        obtain ⟨t3, f3, hh2⟩ := r3
        rw [h3] at h
        simp only at h
        have hhands : hands = [h0, hh1, hh2, f3] := (Option.some.inj h).symm
        have hrep : (List.replicate N (0 : ℕ)).length = freq0.length := by
          simp [hlen]
        obtain ⟨c1, hf1len, _⟩ := dealHand_conserve N s _ fuel 0 freq0 _ t1 f1 h0 h1 hrep
        obtain ⟨c2, hf2len, _⟩ := dealHand_conserve N s _ fuel t1 f1 _ t2 f2 hh1 h2
          (by simp [hlen]; omega)
        obtain ⟨c3, _, _⟩ := dealHand_conserve N s _ fuel t2 f2 _ t3 f3 hh2 h3
          (by simp [hlen]; omega)
        intro j
        have hc1 := c1 j
        have hc2 := c2 j
        have hc3 := c3 j
        rw [getD_replicate_zero] at hc1 hc2 hc3
        rw [hhands]
        simp only [List.map_cons, List.map_nil, List.sum_cons, List.sum_nil]
        omega

theorem svc_found_hand_pos (hand : Hand) (pat : Pattern) (lr : ℤ)
    (hf : (smallest_valid_choice hand pat lr).1 = true) : 0 < hand.length := by
  cases hfind : (List.range hand.length).find? (validStart hand pat lr) with
  | none => rw [svc_not_found_eq hand pat lr hfind] at hf; exact absurd hf (by simp)
  | some r =>
    have := List.mem_range.mp (List.mem_of_find?_eq_some hfind)
    omega

theorem tryPatterns_found_hand_pos (hand : Hand) :
    ∀ ms : List Pattern, (tryPatterns hand ms).1 = true → 0 < hand.length := by
  intro ms
  induction ms with
  | nil => intro h; simp [tryPatterns] at h
  | cons p rest ih =>
    intro h
    by_cases hsucc : (smallest_valid_choice hand p).1 = true ∨ rest = []
    · rw [tryPatterns, if_pos hsucc] at h
      exact svc_found_hand_pos hand p (-1) h
    · rw [tryPatterns, if_neg hsucc] at h
      exact ih h

theorem naive_move_found_hand_pos (hand : Hand) (free : Bool) (ms : List Pattern)
    (pattern : Option Pattern) (lr : ℤ)
    (h : (naive_move hand free ms pattern lr).contains_pattern = true) :
    0 < hand.length := by
  unfold naive_move at h
  cases free with
  | true =>
    simp only [if_pos] at h
    by_cases hc : (tryPatterns hand ms).1 = true
    · exact tryPatterns_found_hand_pos hand ms hc
    · simp [hc] at h
  | false =>
    simp only [Bool.false_eq_true, if_neg, if_false] at h
    cases pattern with
    | none => simp at h
    | some p =>
      by_cases hc : (smallest_valid_choice hand p lr).1 = true
      · exact svc_found_hand_pos hand p lr hc
      · simp [hc] at h

theorem freeCheck_hands_map_sum (s : GameState) (f : Hand → ℕ) :
    ((freeCheck s).players.map (fun pl => f pl.hand)).sum =
      (s.players.map (fun pl => f pl.hand)).sum := by
  unfold freeCheck
  split
  · simp only [setFree]
    by_cases hc : s.currPlayer < s.players.length
    · have := sum_map_set (fun pl => f pl.hand) (⟨[], false⟩ : PlayerSt)
        s.players s.currPlayer ⟨(getPlayer s.players s.currPlayer).hand, true⟩ hc
      simp only [getPlayer] at this ⊢
      omega
    · rw [List.set_eq_of_length_le (by omega)]
  · rfl

theorem stepEntry_action (ms : List Pattern) (s : GameState) :
    (stepEntry ms s).action =
      ⟨s.currPlayer, (moverResult ms s).contains_pattern, (moverResult ms s).pattern,
        (moverResult ms s).choice, (moverResult ms s).leading_rank⟩ := by
  simp [stepEntry]

theorem stepEntry_reward (ms : List Pattern) (s : GameState) :
    (stepEntry ms s).reward = calculate_reward s.currPlayer
      (moverResult ms s).contains_pattern (moverResult ms s).newHand.sum := by
  simp [stepEntry]

theorem stepEntry_state (ms : List Pattern) (s : GameState) :
    (stepEntry ms s).state = get_state s s.currPlayer := by
  simp [stepEntry]

theorem playedTotal_append_entry (hist : List HistEntry) (e : HistEntry) (i : ℕ) :
    playedTotal (hist ++ [e]) i = playedTotal hist i +
      (if e.action.contains_pattern then e.action.choice.getD i 0 else 0) := by
  unfold playedTotal
  rw [List.map_append, List.sum_append]
  simp

theorem step_conserve (ms : List Pattern) (s : GameState) (i : ℕ) :
    handsTotal (step ms s).1 i + playedTotal (step ms s).1.history i =
      handsTotal s i + playedTotal s.history i := by
  have hact1 : (stepEntry ms s).action.contains_pattern =
      (moverResult ms s).contains_pattern := by simp [stepEntry]
  have hact2 : (stepEntry ms s).action.choice = (moverResult ms s).choice := by
    simp [stepEntry]
  rw [step_fst_history, playedTotal_append_entry, hact1, hact2]
  have hfc : ((freeCheck s).players.map (fun pl => pl.hand.getD i 0)).sum =
      (s.players.map (fun pl => pl.hand.getD i 0)).sum :=
    freeCheck_hands_map_sum s (fun h => h.getD i 0)
  by_cases hcurr : s.currPlayer < s.players.length
  · have hcurr' : s.currPlayer < (freeCheck s).players.length := by
      rw [freeCheck_players_length]; exact hcurr
    have htot := sum_map_set (fun pl => pl.hand.getD i 0) (⟨[], false⟩ : PlayerSt)
      (freeCheck s).players s.currPlayer ⟨(moverResult ms s).newHand, false⟩ hcurr'
    simp only [] at htot
    have hhand : ((freeCheck s).players.getD s.currPlayer ⟨[], false⟩).hand =
        (getPlayer s.players s.currPlayer).hand := freeCheck_hand s s.currPlayer
    rw [hhand] at htot
    unfold handsTotal
    rw [step_fst_players]
    by_cases hc : (moverResult ms s).contains_pattern = true
    · have hcons := naive_move_success_conserve
        (getPlayer s.players s.currPlayer).hand
        (getPlayer (freeCheck s).players s.currPlayer).free ms s.pattern s.leadingRank
        (by rw [← moverResult_eq]; exact hc) i
      rw [← moverResult_eq] at hcons
      rw [if_pos hc]
      omega
    · have hcb : (moverResult ms s).contains_pattern = false := by
        cases hb : (moverResult ms s).contains_pattern
        · rfl
        · exact absurd hb hc
      have hnew : (moverResult ms s).newHand =
          (getPlayer s.players s.currPlayer).hand := by
        rw [moverResult_eq] at hcb ⊢
        exact naive_move_skip _ _ _ _ _ hcb
      have hnewD : (moverResult ms s).newHand.getD i 0 =
          (getPlayer s.players s.currPlayer).hand.getD i 0 := by rw [hnew]
      rw [if_neg hc]
      omega
  · have hcurr' : (freeCheck s).players.length ≤ s.currPlayer := by
      rw [freeCheck_players_length]; omega
    have hhand_default : (getPlayer s.players s.currPlayer).hand = [] := by
      unfold getPlayer
      rw [List.getD_eq_getElem?_getD, List.getElem?_eq_none (by omega)]
      rfl
    have hcb : (moverResult ms s).contains_pattern = false := by
      cases hb : (moverResult ms s).contains_pattern
      · rfl
      · exfalso
        rw [moverResult_eq] at hb
        have := naive_move_found_hand_pos _ _ _ _ _ hb
        rw [hhand_default] at this
        simp at this
    unfold handsTotal
    rw [step_fst_players, List.set_eq_of_length_le hcurr', if_neg (by simp [hcb])]
    omega

theorem runGame_conserve (sh : ℕ → List Pattern) :
    ∀ fuel t s s', runGame sh fuel t s = some s' →
      ∀ i, handsTotal s' i + playedTotal s'.history i =
        handsTotal s i + playedTotal s.history i := by
  intro fuel
  induction fuel with
  | zero => intro t s s' h; simp [runGame] at h
  | succ f ih =>
    intro t s s' h i
    simp only [runGame] at h
    by_cases hover : (step (sh t) s).2 = true
    · rw [if_pos hover] at h
      rw [← Option.some.inj h]
      exact step_conserve (sh t) s i
    · rw [if_neg hover] at h
      have := ih (t + 1) (step (sh t) s).1 s' h i
      rw [this]
      exact step_conserve (sh t) s i

theorem runGame_hist_extend (sh : ℕ → List Pattern) :
    ∀ fuel t s s', runGame sh fuel t s = some s' →
      ∃ rest, s'.history = s.history ++ rest := by
  intro fuel
  induction fuel with
  | zero => intro t s s' h; simp [runGame] at h
  | succ f ih =>
    intro t s s' h
    simp only [runGame] at h
    by_cases hover : (step (sh t) s).2 = true
    · rw [if_pos hover] at h
      exact ⟨[stepEntry (sh t) s], by rw [← Option.some.inj h, step_fst_history]⟩
    · rw [if_neg hover] at h
      obtain ⟨rest, hrest⟩ := ih (t + 1) (step (sh t) s).1 s' h
      refine ⟨[stepEntry (sh t) s] ++ rest, ?_⟩
      rw [hrest, step_fst_history, List.append_assoc]

theorem runGame_over_props (sh : ℕ → List Pattern) :
    ∀ fuel t s s', runGame sh fuel t s = some s' →
      (getPlayer s'.players s'.currPlayer).hand.sum = 0 ∧
      ∃ e, s'.history.getLast? = some e ∧ e.reward = 10 ∧
        e.action.player = s'.currPlayer := by
  intro fuel
  induction fuel with
  | zero => intro t s s' h; simp [runGame] at h
  | succ f ih =>
    intro t s s' h
    simp only [runGame] at h
    by_cases hover : (step (sh t) s).2 = true
    · rw [if_pos hover] at h
      have hs' : s' = (step (sh t) s).1 := (Option.some.inj h).symm
      have hsum : (moverResult (sh t) s).newHand.sum = 0 :=
        (step_snd_iff (sh t) s).mp hover
      have hcurr : s'.currPlayer = s.currPlayer := by
        rw [hs']; exact step_fst_curr_over (sh t) s hover
      constructor
      · rw [hs', step_fst_players, step_fst_curr_over (sh t) s hover]
        unfold getPlayer
        rw [getD_set_eq]
        by_cases hlt : s.currPlayer < (freeCheck s).players.length
        · rw [if_pos ⟨rfl, hlt⟩]
          exact hsum
        · rw [if_neg (by tauto)]
          have : ((freeCheck s).players.getD s.currPlayer ⟨[], false⟩).hand =
              (getPlayer s.players s.currPlayer).hand := freeCheck_hand s s.currPlayer
          rw [this]
          unfold getPlayer
          rw [List.getD_eq_getElem?_getD, List.getElem?_eq_none
            (by rw [freeCheck_players_length] at hlt; omega)]
          rfl
      · refine ⟨stepEntry (sh t) s, ?_, ?_, ?_⟩
        · rw [hs', step_fst_history]
          exact List.getLast?_concat _
        · rw [stepEntry_reward, hsum]
          unfold calculate_reward
          rw [if_pos rfl]
        · rw [stepEntry_action, hcurr]
    · rw [if_neg hover] at h
      exact ih (t + 1) (step (sh t) s).1 s' h

/-- C3. Termination: every game driven by `GameEnv.play_game` with the
automatic players reaches GAME_OVER within a bounded number of steps
(explicit fuel `measureOf + 1` suffices): total cards strictly decrease on
every successful move and the free-reset rule forces progress after at most
`num_players − 1` consecutive skips (both facts are the content of
`step_progress`). -/
theorem play_game_terminates (hands : List Hand) (start : ℕ) (sh : ℕ → List Pattern)
    (h2 : 2 ≤ hands.length) (hstart : start < hands.length)
    (hpos : ∀ h ∈ hands, 0 < h.sum) (hsh : ∀ t, GoodShuffle (sh t)) :
    ∃ s', runGame sh (measureOf (initState hands start) + 1) 0
      (initState hands start) = some s' :=
  runGame_terminates sh hsh _ 0 _ (initState_inv hands start h2 hstart hpos)
    (Nat.lt_succ_self _)

/-- Witness for C3: a concrete four-player game terminates. -/
theorem play_game_terminates_witness :
    (∀ h ∈ ([[1], [1], [1], [1]] : List Hand), 0 < h.sum) ∧
    ∃ s', runGame (fun _ => [⟨1, 1⟩])
      (measureOf (initState [[1], [1], [1], [1]] 0) + 1) 0
      (initState [[1], [1], [1], [1]] 0) = some s' :=
  ⟨by decide,
    play_game_terminates [[1], [1], [1], [1]] 0 (fun _ => [⟨1, 1⟩])
      (by decide) (by decide) (by decide)
      (by
        intro t
        show GoodShuffle [⟨1, 1⟩]
        exact ⟨by decide, by decide⟩)⟩

/-- C4. Conservation: (1) whenever the 4-player deal of `GameEnv.reset`
completes, the elementwise sum of the dealt hands equals the deck's per-rank
copy counts; (2) over any run of the game loop, for every rank the cards held
across all hands plus the cards in all previously played choices stay
constant. -/
theorem conservation :
    (∀ (N : ℕ) (s : ℕ → ℕ) (fuel : ℕ) (cpp : List ℕ) (freq0 : List ℕ)
        (hands : List Hand), freq0.length = N →
        dealAll N s fuel cpp freq0 = some hands →
        ∀ j, (hands.map (fun hd => hd.getD j 0)).sum = freq0.getD j 0) ∧
    (∀ (sh : ℕ → List Pattern) (fuel t : ℕ) (s s' : GameState),
        runGame sh fuel t s = some s' →
        ∀ i, handsTotal s' i + playedTotal s'.history i =
          handsTotal s i + playedTotal s.history i) :=
  ⟨dealAll_conserve, runGame_conserve⟩

/-- Witness for C4: a concrete deal of a 2-rank deck and a concrete game. -/
theorem conservation_witness :
    (([[1, 0], [0, 1], [1, 0], [0, 1]] : List Hand).map
        (fun hd => hd.getD 0 0)).sum = ([2, 2] : List ℕ).getD 0 0 ∧
    ∃ s', runGame (fun _ => [⟨1, 1⟩]) 4 0 (initState [[1], [1]] 0) = some s' ∧
      handsTotal s' 0 + playedTotal s'.history 0 =
        handsTotal (initState [[1], [1]] 0) 0 +
          playedTotal (initState [[1], [1]] 0).history 0 := by
  constructor
  · exact conservation.1 2 (fun t => t) 4 [1, 1, 1] [2, 2]
      [[1, 0], [0, 1], [1, 0], [0, 1]] (by decide) (by decide) 0
  · cases hrun : runGame (fun _ => [⟨1, 1⟩]) 4 0 (initState [[1], [1]] 0) with
    | none => exact absurd hrun (by decide)
    | some s' => exact ⟨s', rfl, conservation.2 _ 4 0 _ s' hrun 0⟩

/-- C5. Free reset: when `skip_count` reaches `num_players − 1` at the top
of the loop, the player about to move is marked free and `skip_count` resets
to 0; and a free naive mover ignores the incoming `leading_rank` (it is
cleared to the "none" sentinel before pattern selection, so the free player
plays unconstrained). -/
theorem free_reset (s : GameState) (h : s.skipCount = s.players.length - 1)
    (hc : s.currPlayer < s.players.length) :
    (getPlayer (freeCheck s).players s.currPlayer).free = true ∧
    (freeCheck s).skipCount = 0 ∧
    (∀ (hand : Hand) (ms : List Pattern) (pat : Option Pattern) (lr : ℤ),
      naive_move hand true ms pat lr = naive_move hand true ms pat (-1)) := by
  refine ⟨freeCheck_free_of_trigger s h hc, ?_, ?_⟩
  · rw [freeCheck_skip, if_pos h]
  · intro hand ms pat lr
    exact naive_move_free_ignores_lr hand ms pat lr (-1)

/-- Witness for C5: a 4-player state after three consecutive skips. -/
theorem free_reset_witness :
    (getPlayer (freeCheck ⟨[⟨[1], false⟩, ⟨[1], false⟩, ⟨[1], false⟩,
        ⟨[1], false⟩], 2, some ⟨1, 1⟩, 0, 3, []⟩).players 2).free = true ∧
    (freeCheck ⟨[⟨[1], false⟩, ⟨[1], false⟩, ⟨[1], false⟩,
        ⟨[1], false⟩], 2, some ⟨1, 1⟩, 0, 3, []⟩).skipCount = 0 ∧
    naive_move [1] true [⟨1, 1⟩] none 7 = naive_move [1] true [⟨1, 1⟩] none (-1) :=
  ⟨(free_reset _ (by decide) (by decide)).1,
   (free_reset ⟨[⟨[1], false⟩, ⟨[1], false⟩, ⟨[1], false⟩,
      ⟨[1], false⟩], 2, some ⟨1, 1⟩, 0, 3, []⟩ (by decide) (by decide)).2.1,
   (free_reset ⟨[⟨[1], false⟩, ⟨[1], false⟩, ⟨[1], false⟩,
      ⟨[1], false⟩], 2, some ⟨1, 1⟩, 0, 3, []⟩ (by decide) (by decide)).2.2
     [1] [⟨1, 1⟩] none 7⟩

/-- C6. Game over: whenever the game loop returns, the final current
player's hand sum is zero (that player is the winner; `curr_player` is not
advanced on the ending step), the last recorded reward is the win bonus 10
and the last recorded action belongs to the winner; moreover a step ends the
game exactly when the mover's remaining hand sum is zero. -/
theorem game_over_winner (sh : ℕ → List Pattern) (fuel t : ℕ) (s s' : GameState)
    (h : runGame sh fuel t s = some s') :
    ((getPlayer s'.players s'.currPlayer).hand.sum = 0 ∧
      ∃ e, s'.history.getLast? = some e ∧ e.reward = 10 ∧
        e.action.player = s'.currPlayer) ∧
    (∀ (ms : List Pattern) (u : GameState),
      (step ms u).2 = true ↔ (moverResult ms u).newHand.sum = 0) :=
  ⟨runGame_over_props sh fuel t s s' h, fun ms u => step_snd_iff ms u⟩

/-- Witness for C6: a concrete finished game. -/
theorem game_over_winner_witness :
    ∃ s', runGame (fun _ => [⟨1, 1⟩]) 3 0 (initState [[1], [1]] 1) = some s' ∧
      (getPlayer s'.players s'.currPlayer).hand.sum = 0 ∧
      ∃ e, s'.history.getLast? = some e ∧ e.reward = 10 ∧
        e.action.player = s'.currPlayer := by
  cases hrun : runGame (fun _ => [⟨1, 1⟩]) 3 0 (initState [[1], [1]] 1) with
  | none => exact absurd hrun (by decide)
  | some s' =>
    exact ⟨s', rfl, (game_over_winner _ 3 0 _ s' hrun).1⟩

/-- C7. Reward policy: `calculate_reward` returns 10 when the mover's
remaining hand sum is zero, 0.1 when a pattern was played and cards remain,
and −0.1 when the player skipped (and cards remain; an empty hand takes
priority). -/
theorem calculate_reward_spec (cp : ℕ) (c : Bool) (rem : ℕ) :
    (rem = 0 → calculate_reward cp c rem = 10) ∧
    (rem ≠ 0 → c = true → calculate_reward cp c rem = 1 / 10) ∧
    (rem ≠ 0 → c = false → calculate_reward cp c rem = -(1 / 10)) :=
  ⟨fun h => by simp [calculate_reward, h],
   fun h hc => by simp [calculate_reward, h, hc],
   fun h hc => by simp [calculate_reward, h, hc]⟩

/-- Witness for C7 at concrete inputs for the three branches. -/
theorem calculate_reward_spec_witness :
    calculate_reward 0 true 0 = 10 ∧
    calculate_reward 1 true 5 = 1 / 10 ∧
    calculate_reward 2 false 5 = -(1 / 10) :=
  ⟨(calculate_reward_spec 0 true 0).1 rfl,
   (calculate_reward_spec 1 true 5).2.1 (by decide) rfl,
   (calculate_reward_spec 2 false 5).2.2 (by decide) rfl⟩

/-- C8. Frame: a step of the game never changes the hand of any player
other than the mover; a skipping mover's hand is unchanged as well, and at
the player level a `NaivePlayer.move` that reports no pattern returns the
hand untouched. -/
theorem hand_frame (ms : List Pattern) (s : GameState) (p : ℕ)
    (hp : p ≠ s.currPlayer) :
    (getPlayer (step ms s).1.players p).hand = (getPlayer s.players p).hand ∧
    ((moverResult ms s).contains_pattern = false →
      (getPlayer (step ms s).1.players s.currPlayer).hand =
        (getPlayer s.players s.currPlayer).hand) ∧
    (∀ (hand : Hand) (free : Bool) (pat : Option Pattern) (lr : ℤ),
      (naive_move hand free ms pat lr).contains_pattern = false →
      (naive_move hand free ms pat lr).newHand = hand) := by
  refine ⟨?_, ?_, fun hand free pat lr h => naive_move_skip hand free ms pat lr h⟩
  · rw [step_fst_players]
    unfold getPlayer
    rw [getD_set_eq, if_neg (fun hcond => hp hcond.1.symm)]
    exact freeCheck_hand s p
  · intro hskip
    have hnew : (moverResult ms s).newHand =
        (getPlayer s.players s.currPlayer).hand := by
      rw [moverResult_eq] at hskip ⊢
      exact naive_move_skip _ _ _ _ _ hskip
    rw [step_fst_players]
    unfold getPlayer
    rw [getD_set_eq]
    by_cases hlt : s.currPlayer < (freeCheck s).players.length
    · rw [if_pos ⟨rfl, hlt⟩]
      exact hnew
    · rw [if_neg (by tauto)]
      exact freeCheck_hand s s.currPlayer

/-- Witness for C8: another player's hand survives a concrete step, and a
concrete skipping move leaves the hand alone. -/
theorem hand_frame_witness :
    (getPlayer (step [⟨1, 1⟩] ⟨[⟨[2], true⟩, ⟨[3], false⟩], 0, none, -1, 0,
        []⟩).1.players 1).hand =
      (getPlayer ([⟨[2], true⟩, ⟨[3], false⟩] : List PlayerSt) 1).hand ∧
    (naive_move [0] false [⟨1, 1⟩] (some ⟨1, 1⟩) 5).newHand = [0] :=
  ⟨(hand_frame [⟨1, 1⟩] ⟨[⟨[2], true⟩, ⟨[3], false⟩], 0, none, -1, 0, []⟩ 1
      (by decide)).1,
   (hand_frame [⟨1, 1⟩] ⟨[⟨[2], true⟩, ⟨[3], false⟩], 0, none, -1, 0, []⟩ 1
      (by decide)).2.2 [0] false (some ⟨1, 1⟩) 5 (by decide)⟩

/-- C9. History immutability: each step appends exactly one new record
(in turn order) whose `state` field is the pre-move snapshot and whose
`new_state` field is the post-move snapshot, both built from per-hand copies
(`get_state` on the value state); a completed run only ever extends the
existing history, so records are never mutated after creation. -/
theorem history_append_only (ms : List Pattern) (s : GameState) :
    (step ms s).1.history = s.history ++ [stepEntry ms s] ∧
    (stepEntry ms s).state = get_state s s.currPlayer ∧
    (stepEntry ms s).new_state = get_state (postMove ms s) s.currPlayer ∧
    (∀ (sh : ℕ → List Pattern) (fuel t : ℕ) (s' : GameState),
      runGame sh fuel t s = some s' → ∃ rest, s'.history = s.history ++ rest) := by
  refine ⟨step_fst_history ms s, stepEntry_state ms s, by simp [stepEntry], ?_⟩
  intro sh fuel t s' h
  exact runGame_hist_extend sh fuel t s s' h

/-- Witness for C9: a concrete step appends its record and a concrete run
extends the history. -/
theorem history_append_only_witness :
    (step [⟨1, 1⟩] (initState [[2], [2]] 0)).1.history =
      (initState [[2], [2]] 0).history ++ [stepEntry [⟨1, 1⟩] (initState [[2], [2]] 0)] ∧
    ∃ s', runGame (fun _ => [⟨1, 1⟩]) 6 0 (initState [[2], [2]] 0) = some s' ∧
      ∃ rest, s'.history = (initState [[2], [2]] 0).history ++ rest := by
  refine ⟨(history_append_only [⟨1, 1⟩] (initState [[2], [2]] 0)).1, ?_⟩
  cases hrun : runGame (fun _ => [⟨1, 1⟩]) 6 0 (initState [[2], [2]] 0) with
  | none => exact absurd hrun (by decide)
  | some s' =>
    exact ⟨s', rfl,
      (history_append_only [⟨1, 1⟩] (initState [[2], [2]] 0)).2.2.2 _ 6 0 s' hrun⟩

/-- C10. `UserPlayer.move` consumes the free flag on every completed
interaction: whenever the input loop exits (even with an accepted input that
plays no pattern), the player's free flag is `false` afterwards. -/
theorem user_move_clears_free (ms : List Pattern) (hand : Hand) (free : Bool)
    (pattern : Option Pattern) (lr : ℤ) (attempts : List Attempt)
    (r : UserResult) (h : user_move ms hand free pattern lr attempts = some r) :
    r.free = false := by
  unfold user_move at h
  cases hloop : userLoop ms free pattern lr attempts with
  | none => rw [hloop] at h; simp at h
  | some v =>
    obtain ⟨c, p, ch, ur, lr'⟩ := v
    rw [hloop] at h
    simp only at h
    split at h
    · rw [← Option.some.inj h]
    · rw [← Option.some.inj h]

/-- Witness for C10: a free user whose first valid input plays no pattern is
no longer free afterwards. -/
theorem user_move_clears_free_witness :
    user_move [⟨1, 1⟩] [1] true none (-1)
        [⟨⟨1, 1⟩, true, (false, ⟨1, 1⟩, [], -1, true)⟩] =
      some ⟨false, some ⟨1, 1⟩, [], -1, [1], false⟩ ∧
    (⟨false, some ⟨1, 1⟩, [], -1, [1], false⟩ : UserResult).free = false :=
  ⟨by decide,
   user_move_clears_free [⟨1, 1⟩] [1] true none (-1)
     [⟨⟨1, 1⟩, true, (false, ⟨1, 1⟩, [], -1, true)⟩] _ (by decide)⟩

end CardRL
